import Mathlib

/-!
Verification of the KSU IT RAG chatbot repository: the web-crawling
subsystem described in the specification (BFS frontier, URL admission
filter, error recovery, incremental corpus writing) and the React chat
interface (handleSend in ChatInterface.js, InputArea send button).
The crawler implementation file (data/crawler/main.py) is not part of
the provided sources, so the crawler definitions are modelled from the
specification; the chat-interface definitions are translated from the
JavaScript source.
-/

/-! ## Chat interface model (from src/frontend/src/components/ChatInterface.js) -/

/-- Message author kind: user-authored or bot-authored, as in the
`type` field of messages in ChatInterface.js. -/
inductive MsgType where
  | user
  | bot
deriving DecidableEq, Repr

/-- A chat message as built in ChatInterface.js: content text, optional
source citations, and an error flag (set on the apology message). -/
structure ChatMessage where
  kind : MsgType
  content : String
  sources : List String
  isError : Bool
deriving DecidableEq, Repr

/-- The component state used by handleSend: the message list, the input
box contents, the in-flight flag and the error banner text. -/
structure ChatState where
  messages : List ChatMessage
  input : String
  isLoading : Bool
  error : Option String
deriving DecidableEq, Repr

/-- Outcome of the axios POST to /api/v1/chat: a successful response
carrying answer and optional sources, or a thrown error. -/
inductive ApiResponse where
  | ok (answer : String) (sources : Option (List String))
  | err
deriving DecidableEq, Repr

/-- JavaScript String.prototype.trim: strip whitespace from both ends. -/
def jsTrim (s : String) : String :=
  ⟨((s.data.dropWhile Char.isWhitespace).reverse.dropWhile Char.isWhitespace).reverse⟩

/-- The fixed apology text appended as a bot message in the catch branch
of handleSend. -/
def apologyText : String :=
  "Sorry, I encountered an error processing your request. Please try again or rephrase your question."

/-- The error banner text set by setError in the catch branch. -/
def errorBannerText : String :=
  "Sorry, I encountered an error. Please try again."

/-- handleSend from ChatInterface.js, lines 47-93. Returns the new state
and whether an HTTP request was issued. Guard: empty-after-trim input or
an in-flight request is a no-op. Otherwise append the user message,
clear the input, and append one bot message whose shape depends on the
API outcome; isLoading is reset in the finally block. -/
def handleSend (api : ApiResponse) (s : ChatState) : ChatState × Bool :=
  if jsTrim s.input = "" || s.isLoading then (s, false)
  else
    let userMessage : ChatMessage := ⟨.user, jsTrim s.input, [], false⟩
    let s1 : ChatState :=
      { s with messages := s.messages ++ [userMessage], input := "", isLoading := true, error := none }
    match api with
    | .ok answer sources =>
      let botMessage : ChatMessage := ⟨.bot, answer, sources.getD [], false⟩
      ({ s1 with messages := s1.messages ++ [botMessage], isLoading := false }, true)
    | .err =>
      let errorMessage : ChatMessage := ⟨.bot, apologyText, [], true⟩
      ({ s1 with messages := s1.messages ++ [errorMessage], isLoading := false,
                 error := some errorBannerText }, true)

/-- The send button's disabled condition from InputArea:
disabled iff the trimmed input is empty or a request is loading. -/
def sendDisabled (input : String) (isLoading : Bool) : Bool :=
  jsTrim input == "" || isLoading

/-! ## URL admission filter (modelled from the spec, section 4.1) -/

/-- Split a character list on every occurrence of a separator character;
always returns a nonempty list of (possibly empty) segments. -/
def splitOnCharL (c : Char) : List Char → List (List Char)
  | [] => [[]]
  | x :: xs =>
    let r := splitOnCharL c xs
    if x = c then [] :: r
    else
      match r with
      | [] => [[x]]
      | y :: ys => (x :: y) :: ys

/-- Split a character list at the first occurrence of a separator
substring, returning the parts before and after it, or none when the
separator does not occur. -/
def breakOnL (sep : List Char) : List Char → Option (List Char × List Char)
  | [] => none
  | x :: xs =>
    if sep.isPrefixOf (x :: xs) then some ([], (x :: xs).drop sep.length)
    else
      match breakOnL sep xs with
      | some (a, b) => some (x :: a, b)
      | none => none

/-- Modelled from the spec: a parsed URL with scheme, host, path and
query parameters, the components the admission filter inspects. -/
structure ParsedUrl where
  scheme : List Char
  host : List Char
  path : List Char
  query : List (List Char × List Char)
deriving DecidableEq, Repr

/-- Modelled from the spec: split a raw query string into key/value
pairs (ampersand-separated, key before the first equals sign). -/
def parseQueryL (q : List Char) : List (List Char × List Char) :=
  (splitOnCharL '&' q).map (fun p => (p.takeWhile (· != '='), (p.dropWhile (· != '=')).drop 1))

/-- Modelled from the spec: parse a URL string into its components.
Malformed URLs (no scheme separator, empty scheme, empty host) yield
none. -/
def parseUrlL (s : List Char) : Option ParsedUrl :=
  match breakOnL [':', '/', '/'] s with
  | none => none
  | some (sch, rest) =>
    if sch = [] then none
    else
      let query : List (List Char × List Char) :=
        match breakOnL ['?'] rest with
        | none => []
        | some (_, q) => parseQueryL q
      let beforeQ : List Char :=
        match breakOnL ['?'] rest with
        | none => rest
        | some (b, _) => b
      let host := beforeQ.takeWhile (· != '/')
      let path := beforeQ.dropWhile (· != '/')
      if host = [] then none
      else some ⟨sch, host, path, query⟩

/-- Modelled from the spec: registrable-subdomain domain matching, the
recommended policy — the host equals the allow-listed domain or ends
with a dot followed by it. -/
def domainMatchL (host domain : List Char) : Bool :=
  host == domain || ('.' :: domain).isSuffixOf host

/-- Modelled from the spec: whether some query parameter key of the
parsed URL is among the disallowed query keys. -/
def hasDisallowedKeyL (u : ParsedUrl) (dis : List (List Char)) : Bool :=
  u.query.any (fun kv => dis.contains kv.1)

/-- Modelled from the spec: the extension of the last path segment
(text after the final dot), or empty when there is none. -/
def extOf (path : List Char) : List Char :=
  let seg := (splitOnCharL '/' path).getLastD []
  let parts := splitOnCharL '.' seg
  if parts.length ≤ 1 then [] else parts.getLastD []

/-- Modelled from the spec: non-document extensions rejected by the
admission filter unless explicitly allowed. -/
def nonDocumentExtensions : List (List Char) :=
  ["pdf".data, "jpg".data, "jpeg".data, "png".data, "gif".data, "zip".data,
   "doc".data, "docx".data, "ppt".data, "pptx".data, "xls".data, "xlsx".data,
   "mp3".data, "mp4".data, "css".data, "js".data, "ico".data, "svg".data]

/-- Modelled from the spec, section 4.1: the pure admission predicate.
Rejects malformed URLs, non-http(s) schemes, hosts outside the
allow-list (exact or registrable-subdomain match), URLs carrying a
disallowed query key, and non-document extensions. -/
def admitUrl (url : String) (allowedDomains : List String) (disallowedQueryKeys : List String) : Bool :=
  match parseUrlL url.data with
  | none => false
  | some u =>
    (u.scheme == "http".data || u.scheme == "https".data)
    && allowedDomains.any (fun d => domainMatchL u.host d.data)
    && !(hasDisallowedKeyL u (disallowedQueryKeys.map String.data))
    && !(nonDocumentExtensions.contains (extOf u.path))

/-! ## Crawler data model (modelled from the spec, sections 3-4) -/

/-- Modelled from the spec, section 7: the error taxonomy. -/
inductive ErrorKind where
  | Timeout
  | HttpError
  | NetworkError
  | UnsupportedContentType
  | ExtractionFailed
  | PersistenceFailure
  | ConfigurationError
deriving DecidableEq, Repr

/-- Modelled from the spec, section 4.2: the classified outcome of a
page fetch. -/
inductive FetchOutcome where
  | success (markup : String)
  | timeout
  | httpError (status : Nat)
  | networkError
  | unsupportedContentType
deriving DecidableEq, Repr

/-- Modelled from the spec, section 4.3: the outcome of content
extraction: main text plus title, or a failure signal. -/
inductive ExtractOutcome where
  | ok (text title : String)
  | failed
deriving DecidableEq, Repr

/-- Modelled from the spec, section 3: a frontier entry — the URL, its
BFS depth and the URL of the page that discovered it. Immutable once
created. -/
structure CrawlTask where
  url : String
  depth : Nat
  parentUrl : Option String
deriving DecidableEq, Repr

/-- Modelled from the spec, section 3: one persisted output record per
successfully extracted page. -/
structure PageRecord where
  url : String
  title : String
  textContent : String
  extractedAt : Nat
  depth : Nat
  sourceEntryPoint : String
deriving DecidableEq, Repr

/-- Modelled from the spec, section 3: crawl statistics, mutated after
every task outcome. -/
structure CrawlStats where
  visited : Nat
  extracted : Nat
  errors : Nat
  errorsByKind : ErrorKind → Nat

/-- Modelled from the spec: the crawler's environment — the missing
data/crawler/main.py collaborators: the fetcher, the extractor, the
link discoverer, URL normalization, the admission predicate (section
4.1 applied to discovered links), the output sink's health and a clock
for extraction timestamps. All are deterministic functions of the URL
or markup, per the spec's determinism requirements. -/
structure CrawlWorld where
  fetch : String → FetchOutcome
  extract : String → ExtractOutcome
  links : String → List String
  normalize : String → String
  admitted : String → Bool
  writeOk : String → Bool
  timeOf : String → Nat

/-- Modelled from the spec, section 4.4: the per-entry-point BFS state:
FIFO frontier, visited set (in insertion order), statistics, the output
records written so far, the trace of dequeued (fetched) tasks, and
whether a fatal PersistenceFailure aborted the run. -/
structure CrawlState where
  frontier : List CrawlTask
  visited : List String
  stats : CrawlStats
  records : List PageRecord
  fetched : List CrawlTask
  aborted : Bool

/-- All tasks ever enqueued, in discovery-processing order: the fetched
trace followed by the pending frontier. -/
def tasks (s : CrawlState) : List CrawlTask := s.fetched ++ s.frontier

/-- Kernel-computable membership test on the visited list. -/
def containsStr : List String → String → Bool
  | [], _ => false
  | v :: vs, u => if v = u then true else containsStr vs u

/-- Increment the error counters for one error kind. -/
def bumpErr (st : CrawlStats) (k : ErrorKind) : CrawlStats :=
  { st with errors := st.errors + 1,
            errorsByKind := fun j => if j = k then st.errorsByKind j + 1 else st.errorsByKind j }

/-- Modelled from the spec, section 4.4 Expansion: walk the discovered
links in order; normalize each, keep it when admitted and not already
in the visited set, inserting into visited at the moment of enqueue.
Returns the grown visited list and the new frontier tasks. -/
def expand (w : CrawlWorld) (d : Nat) (parent : String) (vis : List String) :
    List String → List String × List CrawlTask
  | [] => (vis, [])
  | l :: ls =>
    let u := w.normalize l
    if w.admitted u && !(containsStr vis u) then
      let r := expand w d parent (vis ++ [u]) ls
      (r.1, ⟨u, d, some parent⟩ :: r.2)
    else
      expand w d parent vis ls

/-- Expansion guarded by the depth ceiling: children of a task at depth
at least maxDepth are never enqueued. -/
def expandIf (w : CrawlWorld) (maxD : Nat) (t : CrawlTask) (vis : List String)
    (ls : List String) : List String × List CrawlTask :=
  if t.depth < maxD then expand w (t.depth + 1) t.url vis ls else (vis, [])

/-- The link graph the crawl explores: the admitted normalized outbound
links of a URL whose fetch succeeds; a URL whose fetch fails
contributes no edges. -/
def succs (w : CrawlWorld) (u : String) : List String :=
  match w.fetch u with
  | .success m => ((w.links m).map w.normalize).filter w.admitted
  | _ => []

/-- Modelled from the spec, sections 4.4-4.6: one BFS step of the
orchestrator. Dequeue the FIFO head; on fetch failure count the error
and continue; on fetch success extract; on extraction success write the
PageRecord (a write failure is the fatal PersistenceFailure) and expand
the frontier; on extraction failure count the error but still expand
links from the raw markup. Children are only enqueued below the depth
ceiling. -/
def step (w : CrawlWorld) (maxD : Nat) (entry : String) (s : CrawlState) : CrawlState :=
  if s.aborted then s
  else
    match s.frontier with
    | [] => s
    | t :: rest =>
      let stats1 : CrawlStats := { s.stats with visited := s.stats.visited + 1 }
      let fetched1 := s.fetched ++ [t]
      match w.fetch t.url with
      | .success markup =>
        match w.extract markup with
        | .ok text title =>
          let r : PageRecord :=
            { url := t.url, title := title, textContent := text,
              extractedAt := w.timeOf t.url, depth := t.depth, sourceEntryPoint := entry }
          if w.writeOk t.url then
            let ex := expandIf w maxD t s.visited (w.links markup)
            { frontier := rest ++ ex.2, visited := ex.1, fetched := fetched1,
              records := s.records ++ [r],
              stats := { stats1 with extracted := stats1.extracted + 1 }, aborted := false }
          else
            { frontier := rest, visited := s.visited, fetched := fetched1,
              records := s.records, stats := bumpErr stats1 .PersistenceFailure, aborted := true }
        | .failed =>
          let ex := expandIf w maxD t s.visited (w.links markup)
          { frontier := rest ++ ex.2, visited := ex.1, fetched := fetched1,
            records := s.records, stats := bumpErr stats1 .ExtractionFailed, aborted := false }
      | .timeout =>
        { frontier := rest, visited := s.visited, fetched := fetched1,
          records := s.records, stats := bumpErr stats1 .Timeout, aborted := false }
      | .httpError _ =>
        { frontier := rest, visited := s.visited, fetched := fetched1,
          records := s.records, stats := bumpErr stats1 .HttpError, aborted := false }
      | .networkError =>
        { frontier := rest, visited := s.visited, fetched := fetched1,
          records := s.records, stats := bumpErr stats1 .NetworkError, aborted := false }
      | .unsupportedContentType =>
        { frontier := rest, visited := s.visited, fetched := fetched1,
          records := s.records, stats := bumpErr stats1 .UnsupportedContentType, aborted := false }

/-- Modelled from the spec, section 4.4 Init: the initial per-entry
state — the normalized entry URL at depth 0, already in the visited
set. -/
def initState (w : CrawlWorld) (entry : String) : CrawlState :=
  { frontier := [⟨w.normalize entry, 0, none⟩],
    visited := [w.normalize entry],
    stats := ⟨0, 0, 0, fun _ => 0⟩,
    records := [], fetched := [], aborted := false }

/-- Run the BFS for a bounded number of steps from the initial state;
with enough fuel this reaches the Terminal state (empty frontier), and
every intermediate state models a crawl interrupted at that point. -/
def run (w : CrawlWorld) (maxD : Nat) (entry : String) : Nat → CrawlState
  | 0 => initState w entry
  | n + 1 => step w maxD entry (run w maxD entry n)

/-- The classified outcome of processing one URL: none for a fully
successful fetch-extract-write, otherwise the error kind charged. -/
def outcomeKind (w : CrawlWorld) (u : String) : Option ErrorKind :=
  match w.fetch u with
  | .success m =>
    match w.extract m with
    | .ok _ _ => if w.writeOk u then none else some .PersistenceFailure
    | .failed => some .ExtractionFailed
  | .timeout => some .Timeout
  | .httpError _ => some .HttpError
  | .networkError => some .NetworkError
  | .unsupportedContentType => some .UnsupportedContentType

/-- The spec's recoverable error kinds: everything except the fatal
PersistenceFailure and the startup ConfigurationError. -/
def recoverable (k : ErrorKind) : Bool :=
  match k with
  | .Timeout | .HttpError | .NetworkError | .UnsupportedContentType | .ExtractionFailed => true
  | .PersistenceFailure | .ConfigurationError => false

/-- Reachability in exactly n steps in the crawl link graph, from the
normalized entry URL. -/
def reachIn (w : CrawlWorld) (root : String) : Nat → String → Prop
  | 0, v => v = root
  | n + 1, v => ∃ u, reachIn w root n u ∧ v ∈ succs w u

/-- v is at BFS shortest-path distance k from root in the crawl link
graph. -/
def distIs (w : CrawlWorld) (root v : String) (k : Nat) : Prop :=
  reachIn w root k v ∧ ∀ j, reachIn w root j v → k ≤ j

/-- JSON string escaping for the corpus writer: escape backslash,
quote and control whitespace characters. -/
def escCharL (c : Char) : List Char :=
  if c = '"' then ['\\', '"']
  else if c = '\\' then ['\\', '\\']
  else if c = '\n' then ['\\', 'n']
  else if c = '\r' then ['\\', 'r']
  else if c = '\t' then ['\\', 't']
  else [c]

/-- JSON string escaping lifted to strings. -/
def escapeJson (s : String) : String :=
  ⟨s.data.foldr (fun c acc => escCharL c ++ acc) []⟩

/-- Modelled from the spec, sections 4.6 and 6: one PageRecord
serialized as a single JSON line of the output file. -/
def serializePageRecord (r : PageRecord) : String :=
  "\x7b\"url\":\"" ++ escapeJson r.url ++
  "\",\"title\":\"" ++ escapeJson r.title ++
  "\",\"textContent\":\"" ++ escapeJson r.textContent ++
  "\",\"extractedAt\":" ++ toString r.extractedAt ++
  ",\"depth\":" ++ toString r.depth ++
  ",\"sourceEntryPoint\":\"" ++ escapeJson r.sourceEntryPoint ++ "\"\x7d"

/-- The output file contents: one serialized line per durably flushed
record, in write order. -/
def outputLines (s : CrawlState) : List String :=
  s.records.map serializePageRecord

/-- The depth of the next task the BFS will dequeue, or the depth
ceiling when the frontier is exhausted: the discovery horizon of the
crawl. -/
def frontBound (maxD : Nat) (s : CrawlState) : Nat :=
  match s.frontier with
  | [] => maxD
  | t :: _ => t.depth

/-- The BFS invariant bundle: the visited list is exactly the urls of
all tasks ever enqueued (fetched trace then frontier) without repeats;
every task's depth is within the ceiling and equals its shortest-path
distance; task depths are non-decreasing in processing order and the
frontier spans at most two consecutive levels; in a live (non-aborted)
run every processed task below the ceiling has all its children in the
visited set, and every URL within distance frontBound is already
visited. -/
structure CrawlInv (w : CrawlWorld) (maxD : Nat) (entry : String) (s : CrawlState) : Prop where
  vis_eq : s.visited = (tasks s).map (·.url)
  vis_nodup : s.visited.Nodup
  depth_le : ∀ t ∈ tasks s, t.depth ≤ maxD
  depth_dist : ∀ t ∈ tasks s, distIs w (w.normalize entry) t.url t.depth
  mono : (tasks s).Pairwise (fun a b => a.depth ≤ b.depth)
  window : s.frontier.Pairwise (fun a b => b.depth ≤ a.depth + 1)
  expanded : s.aborted = false → ∀ t ∈ s.fetched, t.depth < maxD →
    ∀ v ∈ succs w t.url, v ∈ s.visited
  complete : s.aborted = false → ∀ v k, distIs w (w.normalize entry) v k →
    k ≤ frontBound maxD s → v ∈ s.visited

/-- A concrete world in which every fetch times out; used to exercise
the theorems at explicit inputs. -/
def timeoutWorld : CrawlWorld :=
  { fetch := fun _ => .timeout, extract := fun _ => .failed, links := fun _ => [],
    normalize := fun s => s, admitted := fun _ => false, writeOk := fun _ => true,
    timeOf := fun _ => 0 }

/-- A concrete world in which the entry page fetches successfully but
its extraction fails, and its raw markup links to one admitted child;
used to exercise the extraction-failure behaviour at explicit inputs. -/
def extractFailWorld : CrawlWorld :=
  { fetch := fun u => if u = "a" then .success "m" else .timeout,
    extract := fun _ => .failed,
    links := fun _ => ["b"],
    normalize := fun s => s, admitted := fun _ => true, writeOk := fun _ => true,
    timeOf := fun _ => 0 }

/-! ## Claim theorems: admission filter and chat interface -/

/-- C3: admitUrl returns false whenever the URL's host matches no
allow-listed domain (exact or registrable-subdomain match), and
whenever some query parameter key is disallowed. -/
theorem admitUrl_rejects (url : String) (A D : List String) (u : ParsedUrl)
    (hp : parseUrlL url.data = some u)
    (h : (∀ d ∈ A, domainMatchL u.host d.data = false) ∨
         hasDisallowedKeyL u (D.map String.data) = true) :
    admitUrl url A D = false := by
  unfold admitUrl
  rw [hp]
  rcases h with h | h
  · have hA : A.any (fun d => domainMatchL u.host d.data) = false := by
      rw [List.any_eq_false]
      intro d hd
      simp [h d hd]
    simp [hA]
  · simp [h]

/-- Witness for C3 at a concrete rejected URL. -/
theorem admitUrl_rejects_witness :
    parseUrlL ("http://evil.com/a?color=red").data =
      some ⟨"http".data, "evil.com".data, "/a".data, [("color".data, "red".data)]⟩ ∧
    admitUrl "http://evil.com/a?color=red" ["kennesaw.edu"] ["color"] = false :=
  ⟨by decide,
   admitUrl_rejects "http://evil.com/a?color=red" ["kennesaw.edu"] ["color"]
     ⟨"http".data, "evil.com".data, "/a".data, [("color".data, "red".data)]⟩
     (by decide) (Or.inr (by decide))⟩

/-- C4: admitUrl is a total pure function in this embedding, and a
malformed URL (one the parser rejects) yields false, never an error. -/
theorem admitUrl_malformed (url : String) (A D : List String)
    (h : parseUrlL url.data = none) : admitUrl url A D = false := by
  unfold admitUrl
  rw [h]

/-- Witness for C4 at a concrete malformed URL. -/
theorem admitUrl_malformed_witness :
    parseUrlL "notaurl".data = none ∧ admitUrl "notaurl" ["kennesaw.edu"] [] = false :=
  ⟨by decide, admitUrl_malformed "notaurl" ["kennesaw.edu"] [] (by decide)⟩

/-- C9: with nonempty trimmed input and no request in flight, handleSend
issues one request and appends exactly one user message followed by one
bot message — on success the bot message carries the answer and sources,
on failure the fixed apology with isError — and isLoading ends false. -/
theorem handleSend_appends_user_and_bot (api : ApiResponse) (s : ChatState)
    (h1 : jsTrim s.input ≠ "") (h2 : s.isLoading = false) :
    ((handleSend api s).2 = true ∧ (handleSend api s).1.isLoading = false) ∧
    (handleSend api s).1.messages =
      s.messages ++ [⟨.user, jsTrim s.input, [], false⟩] ++
        [match api with
         | .ok answer sources => (⟨.bot, answer, sources.getD [], false⟩ : ChatMessage)
         | .err => (⟨.bot, apologyText, [], true⟩ : ChatMessage)] := by
  unfold handleSend
  rw [h2]
  simp only [Bool.or_false]
  have hg : decide (jsTrim s.input = "") = false := decide_eq_false h1
  rw [hg]
  cases api <;> simp

/-- Witness for C9 at a concrete state and successful API response. -/
theorem handleSend_appends_user_and_bot_witness :
    (jsTrim " hi " ≠ "" ∧ false = false) ∧
    (((handleSend (.ok "ans" none) ⟨[], " hi ", false, none⟩).2 = true ∧
      (handleSend (.ok "ans" none) ⟨[], " hi ", false, none⟩).1.isLoading = false) ∧
     (handleSend (.ok "ans" none) ⟨[], " hi ", false, none⟩).1.messages =
       [] ++ [⟨.user, jsTrim " hi ", [], false⟩] ++ [⟨.bot, "ans", [], false⟩]) :=
  ⟨⟨by decide, rfl⟩,
   handleSend_appends_user_and_bot (.ok "ans" none) ⟨[], " hi ", false, none⟩
     (by decide) rfl⟩

/-- C10: with empty-after-trim input or a request in flight, handleSend
is a no-op that sends no request; and the send button is disabled under
exactly those conditions. -/
theorem handleSend_noop_when_blocked (api : ApiResponse) (s : ChatState)
    (h : jsTrim s.input = "" ∨ s.isLoading = true) :
    handleSend api s = (s, false) ∧
    (sendDisabled s.input s.isLoading = true ↔ (jsTrim s.input = "" ∨ s.isLoading = true)) := by
  constructor
  · unfold handleSend
    rcases h with h | h
    · simp [h]
    · simp [h]
  · unfold sendDisabled
    constructor
    · intro hd
      rcases Bool.or_eq_true_iff.mp hd with hd | hd
      · exact Or.inl (by simpa using hd)
      · exact Or.inr hd
    · intro hc
      rcases hc with hc | hc
      · simp [hc]
      · simp [hc]

/-- Witness for C10 at a whitespace-only input. -/
theorem handleSend_noop_when_blocked_witness :
    (jsTrim "  " = "" ∨ false = true) ∧
    (handleSend .err ⟨[], "  ", false, none⟩ = (⟨[], "  ", false, none⟩, false) ∧
     (sendDisabled "  " false = true ↔ (jsTrim "  " = "" ∨ false = true))) :=
  ⟨Or.inl (by decide),
   handleSend_noop_when_blocked .err ⟨[], "  ", false, none⟩ (Or.inl (by decide))⟩

/-! ## Helper lemmas for the BFS invariants -/

/-- containsStr decides list membership of strings. -/
theorem containsStr_iff (vis : List String) (u : String) :
    containsStr vis u = true ↔ u ∈ vis := by
  induction vis with
  | nil => simp [containsStr]
  | cons v vs ih =>
    by_cases h : v = u
    · subst h
      simp [containsStr]
    · simp [containsStr, h, ih, Ne.symm h]

/-- A relation that holds between all members of a list holds pairwise. -/
theorem pairwiseOfMem {α : Type} {R : α → α → Prop} :
    ∀ {l : List α}, (∀ a ∈ l, ∀ b ∈ l, R a b) → l.Pairwise R
  | [], _ => List.Pairwise.nil
  | x :: xs, h =>
    List.Pairwise.cons (fun b hb => h x (List.mem_cons_self x xs) b (List.mem_cons_of_mem x hb))
      (pairwiseOfMem (fun a ha b hb =>
        h a (List.mem_cons_of_mem x ha) b (List.mem_cons_of_mem x hb)))

/-- Unfolding reachability at zero steps. -/
theorem reachIn_zero (w : CrawlWorld) (r v : String) : reachIn w r 0 v ↔ v = r := Iff.rfl

/-- Unfolding reachability at a successor step count. -/
theorem reachIn_succ (w : CrawlWorld) (r v : String) (n : Nat) :
    reachIn w r (n + 1) v ↔ ∃ u, reachIn w r n u ∧ v ∈ succs w u := Iff.rfl

/-- Shortest distances are unique. -/
theorem distIs_unique {w : CrawlWorld} {r v : String} {k k' : Nat}
    (h1 : distIs w r v k) (h2 : distIs w r v k') : k = k' :=
  Nat.le_antisymm (h1.2 k' h2.1) (h2.2 k h1.1)

/-- Any reachable vertex has a shortest distance, bounded by any
witnessing step count. -/
theorem distIs_exists {w : CrawlWorld} {r v : String} {j : Nat}
    (h : reachIn w r j v) : ∃ k, distIs w r v k ∧ k ≤ j := by
  classical
  have hex : ∃ n, reachIn w r n v := ⟨j, h⟩
  exact ⟨Nat.find hex, ⟨Nat.find_spec hex, fun i hi => Nat.find_min' hex hi⟩,
    Nat.find_min' hex h⟩

/-- The root is at distance zero from itself. -/
theorem distIs_root (w : CrawlWorld) (r : String) : distIs w r r 0 :=
  ⟨rfl, fun j _ => Nat.zero_le j⟩

/-- A vertex at distance zero is the root. -/
theorem distIs_zero {w : CrawlWorld} {r v : String} (h : distIs w r v 0) : v = r := h.1

/-- The visited list produced by expansion is the input visited list
followed by the urls of the newly created tasks. -/
theorem expand_fst_eq (w : CrawlWorld) (d : Nat) (p : String) :
    ∀ (ls : List String) (vis : List String),
      (expand w d p vis ls).1 = vis ++ ((expand w d p vis ls).2).map (·.url) := by
  intro ls
  induction ls with
  | nil => intro vis; simp [expand]
  | cons l ls ih =>
    intro vis
    by_cases h : (w.admitted (w.normalize l) && !(containsStr vis (w.normalize l))) = true
    · simp only [expand, h, if_true]
      rw [ih (vis ++ [w.normalize l])]
      simp
    · simp only [expand, h, if_false]
      exact ih vis

/-- The input visited list survives expansion. -/
theorem expand_sub (w : CrawlWorld) (d : Nat) (p : String) (ls vis : List String) :
    vis ⊆ (expand w d p vis ls).1 := by
  rw [expand_fst_eq]
  exact List.subset_append_left _ _

/-- Every task created by expansion sits at the target depth, records
its parent, carries an admitted normalized link not previously
visited. -/
theorem expand_tasks_spec (w : CrawlWorld) (d : Nat) (p : String) :
    ∀ (ls vis : List String), ∀ t' ∈ (expand w d p vis ls).2,
      t'.depth = d ∧ t'.parentUrl = some p ∧ w.admitted t'.url = true ∧
      t'.url ∈ ls.map w.normalize ∧ t'.url ∉ vis := by
  intro ls
  induction ls with
  | nil => intro vis t' ht'; simp [expand] at ht'
  | cons l ls ih =>
    intro vis t' ht'
    by_cases h : (w.admitted (w.normalize l) && !(containsStr vis (w.normalize l))) = true
    · simp only [expand, h, if_true] at ht'
      rcases List.mem_cons.mp ht' with rfl | hmem
      · refine ⟨rfl, rfl, ?_, ?_, ?_⟩
        · exact (by simp only [Bool.and_eq_true] at h; exact h.1)
        · simp
        · have := (by simp only [Bool.and_eq_true] at h; exact h.2)
          simp only [Bool.not_eq_true'] at this
          intro hmem
          rw [← containsStr_iff vis (w.normalize l)] at hmem
          simp [this] at hmem
      · obtain ⟨h1, h2, h3, h4, h5⟩ := ih (vis ++ [w.normalize l]) t' hmem
        refine ⟨h1, h2, h3, ?_, ?_⟩
        · simp only [List.map_cons, List.mem_cons]
          exact Or.inr h4
        · intro hv
          exact h5 (List.mem_append_left _ hv)
    · simp only [expand, h, if_false] at ht'
      obtain ⟨h1, h2, h3, h4, h5⟩ := ih vis t' ht'
      exact ⟨h1, h2, h3, by simp [h4], h5⟩

/-- Expansion preserves distinctness of the visited list. -/
theorem expand_nodup (w : CrawlWorld) (d : Nat) (p : String) :
    ∀ (ls vis : List String), vis.Nodup → (expand w d p vis ls).1.Nodup := by
  intro ls
  induction ls with
  | nil => intro vis h; simpa [expand] using h
  | cons l ls ih =>
    intro vis h
    by_cases hc : (w.admitted (w.normalize l) && !(containsStr vis (w.normalize l))) = true
    · simp only [expand, hc, if_true]
      apply ih
      have := (by simp only [Bool.and_eq_true] at hc; exact hc.2)
      simp only [Bool.not_eq_true'] at this
      have hnm : w.normalize l ∉ vis := by
        intro hmem
        rw [← containsStr_iff vis (w.normalize l)] at hmem
        simp [this] at hmem
      simp [List.nodup_append, h, hnm]
    · simp only [expand, hc, if_false]
      exact ih vis h

/-- Every admitted normalized link ends up in the visited list after
expansion: discovered children are never dropped. -/
theorem expand_mem_of (w : CrawlWorld) (d : Nat) (p : String) :
    ∀ (ls vis : List String) (l : String), l ∈ ls → w.admitted (w.normalize l) = true →
      w.normalize l ∈ (expand w d p vis ls).1 := by
  intro ls
  induction ls with
  | nil => intro vis l hl; simp at hl
  | cons l0 ls ih =>
    intro vis l hl ha
    rcases List.mem_cons.mp hl with rfl | hmem
    · by_cases hc : (w.admitted (w.normalize l) && !(containsStr vis (w.normalize l))) = true
      · simp only [expand, hc, if_true]
        exact expand_sub w d p ls (vis ++ [w.normalize l])
          (List.mem_append_right vis (List.mem_singleton_self _))
      · simp only [expand, hc, if_false]
        have hv : w.normalize l ∈ vis := by
          rw [ha] at hc
          simp only [Bool.true_and, Bool.not_eq_true', Bool.not_eq_false] at hc
          have : containsStr vis (w.normalize l) = true := by
            revert hc
            cases containsStr vis (w.normalize l) <;> simp
          exact (containsStr_iff vis (w.normalize l)).mp this
        exact expand_sub w d p ls vis hv
    · by_cases hc : (w.admitted (w.normalize l0) && !(containsStr vis (w.normalize l0))) = true
      · simp only [expand, hc, if_true]
        exact ih (vis ++ [w.normalize l0]) l hmem ha
      · simp only [expand, hc, if_false]
        exact ih vis l hmem ha

/-- Closure of the visited set under the discovery horizon: if the
visited list mirrors the enqueued tasks, task depths are exact
distances, the frontier is depth-sorted, every processed task below the
ceiling has its children visited, and everything within distance d0 is
visited, then everything within the current horizon is visited. -/
theorem complete_closure (w : CrawlWorld) (maxD : Nat) (entry : String) (s : CrawlState)
    (hvis : s.visited = (tasks s).map (·.url))
    (hdle : ∀ t ∈ tasks s, t.depth ≤ maxD)
    (hdd : ∀ t ∈ tasks s, distIs w (w.normalize entry) t.url t.depth)
    (hsort : s.frontier.Pairwise (fun a b => a.depth ≤ b.depth))
    (hexp : ∀ t ∈ s.fetched, t.depth < maxD → ∀ v ∈ succs w t.url, v ∈ s.visited)
    (d0 : Nat)
    (hbase : ∀ v k, distIs w (w.normalize entry) v k → k ≤ d0 → v ∈ s.visited) :
    ∀ k v, distIs w (w.normalize entry) v k → k ≤ frontBound maxD s → v ∈ s.visited := by
  intro k
  induction k using Nat.strong_induction_on with
  | _ k ih =>
    intro v hv hk
    by_cases hk0 : k ≤ d0
    · exact hbase v k hv hk0
    · obtain ⟨k', rfl⟩ : ∃ k', k = k' + 1 := ⟨k - 1, by omega⟩
      obtain ⟨u, hu, hedge⟩ := (reachIn_succ w (w.normalize entry) v k').mp hv.1
      obtain ⟨ku, hku, hkuj⟩ := distIs_exists hu
      have hreach : reachIn w (w.normalize entry) (ku + 1) v :=
        (reachIn_succ w (w.normalize entry) v ku).mpr ⟨u, hku.1, hedge⟩
      have hge : k' + 1 ≤ ku + 1 := hv.2 _ hreach
      have hkeq : ku = k' := by omega
      subst hkeq
      have humem : u ∈ s.visited := ih ku (by omega) u hku (by omega)
      rw [hvis] at humem
      obtain ⟨tu, htu, htuurl⟩ := List.mem_map.mp humem
      have htud : distIs w (w.normalize entry) u tu.depth := htuurl ▸ hdd tu htu
      have hdep : tu.depth = ku := distIs_unique htud hku
      have htuf : tu ∈ s.fetched := by
        rcases List.mem_append.mp htu with hf | hfr
        · exact hf
        · exfalso
          cases hfr0 : s.frontier with
          | nil => rw [hfr0] at hfr; simp at hfr
          | cons f0 tl =>
            have hb : frontBound maxD s = f0.depth := by simp [frontBound, hfr0]
            have hle : f0.depth ≤ tu.depth := by
              rw [hfr0] at hfr
              rcases List.mem_cons.mp hfr with rfl | hmem
              · exact Nat.le_refl _
              · have := hsort
                rw [hfr0] at this
                exact (List.pairwise_cons.mp this).1 tu hmem
            omega
      have hmaxD : ku + 1 ≤ maxD := by
        cases hfr0 : s.frontier with
        | nil =>
          have hb : frontBound maxD s = maxD := by simp [frontBound, hfr0]
          omega
        | cons f0 tl =>
          have hb : frontBound maxD s = f0.depth := by simp [frontBound, hfr0]
          have : f0.depth ≤ maxD := by
            apply hdle f0
            rw [tasks, hfr0]
            exact List.mem_append_right _ (List.mem_cons_self _ _)
          omega
      have hvv : v ∈ succs w tu.url := htuurl ▸ hedge
      exact hexp tu htuf (by omega) v hvv

/-- Dequeueing a task that contributes no children (failed fetch)
preserves the BFS invariants. -/
theorem inv_fail {w : CrawlWorld} {maxD : Nat} {entry : String} {s : CrawlState}
    (h : CrawlInv w maxD entry s) {t : CrawlTask} {rest : List CrawlTask}
    (hfr : s.frontier = t :: rest) (hab : s.aborted = false)
    (hs : t.depth < maxD → succs w t.url = [])
    {s' : CrawlState}
    (h1 : s'.frontier = rest) (h2 : s'.visited = s.visited)
    (h3 : s'.fetched = s.fetched ++ [t]) (_h4 : s'.aborted = false) :
    CrawlInv w maxD entry s' := by
  have htasks : tasks s' = tasks s := by
    rw [tasks, tasks, h1, h3, hfr]
    simp
  have hexp' : ∀ t' ∈ s'.fetched, t'.depth < maxD → ∀ v ∈ succs w t'.url, v ∈ s'.visited := by
    intro t' ht' hd v hv
    rw [h3] at ht'
    rcases List.mem_append.mp ht' with hf | hf
    · rw [h2]
      exact h.expanded hab t' hf hd v hv
    · have heq : t' = t := by simpa using hf
      subst heq
      rw [hs hd] at hv
      simp at hv
  have hsort' : s'.frontier.Pairwise (fun a b => a.depth ≤ b.depth) := by
    rw [h1]
    have hm := h.mono
    rw [tasks, hfr] at hm
    exact (List.pairwise_cons.mp (List.pairwise_append.mp hm).2.1).2
  refine ⟨?_, ?_, ?_, ?_, ?_, ?_, fun _ => hexp', ?_⟩
  · rw [h2, htasks]
    exact h.vis_eq
  · rw [h2]
    exact h.vis_nodup
  · rw [htasks]
    exact h.depth_le
  · rw [htasks]
    exact h.depth_dist
  · rw [htasks]
    exact h.mono
  · rw [h1]
    have hw := h.window
    rw [hfr] at hw
    exact (List.pairwise_cons.mp hw).2
  · intro _ v k hk hb
    refine complete_closure w maxD entry s' ?_ ?_ ?_ hsort' hexp' t.depth ?_ k v hk hb
    · rw [h2, htasks]
      exact h.vis_eq
    · rw [htasks]
      exact h.depth_le
    · rw [htasks]
      exact h.depth_dist
    · intro v' k' hk' hkd
      rw [h2]
      apply h.complete hab v' k' hk'
      have hbd : frontBound maxD s = t.depth := by simp [frontBound, hfr]
      omega

/-- The fatal PersistenceFailure transition preserves the BFS
invariants: the live-run obligations become vacuous. -/
theorem inv_abort {w : CrawlWorld} {maxD : Nat} {entry : String} {s : CrawlState}
    (h : CrawlInv w maxD entry s) {t : CrawlTask} {rest : List CrawlTask}
    (hfr : s.frontier = t :: rest)
    {s' : CrawlState}
    (h1 : s'.frontier = rest) (h2 : s'.visited = s.visited)
    (h3 : s'.fetched = s.fetched ++ [t]) (h4 : s'.aborted = true) :
    CrawlInv w maxD entry s' := by
  have htasks : tasks s' = tasks s := by
    rw [tasks, tasks, h1, h3, hfr]
    simp
  refine ⟨?_, ?_, ?_, ?_, ?_, ?_, ?_, ?_⟩
  · rw [h2, htasks]
    exact h.vis_eq
  · rw [h2]
    exact h.vis_nodup
  · rw [htasks]
    exact h.depth_le
  · rw [htasks]
    exact h.depth_dist
  · rw [htasks]
    exact h.mono
  · rw [h1]
    have hw := h.window
    rw [hfr] at hw
    exact (List.pairwise_cons.mp hw).2
  · intro habs
    rw [h4] at habs
    cases habs
  · intro habs
    rw [h4] at habs
    cases habs

/-- Dequeueing a successfully fetched task and expanding its links
preserves the BFS invariants. -/
theorem inv_expand {w : CrawlWorld} {maxD : Nat} {entry : String} {s : CrawlState}
    (h : CrawlInv w maxD entry s) {t : CrawlTask} {rest : List CrawlTask}
    (hfr : s.frontier = t :: rest) (hab : s.aborted = false)
    {markup : String} (hm : w.fetch t.url = .success markup)
    {s' : CrawlState}
    (h1 : s'.frontier = rest ++ (expandIf w maxD t s.visited (w.links markup)).2)
    (h2 : s'.visited = (expandIf w maxD t s.visited (w.links markup)).1)
    (h3 : s'.fetched = s.fetched ++ [t]) (h4 : s'.aborted = false) :
    CrawlInv w maxD entry s' := by
  by_cases hd : t.depth < maxD
  case neg =>
    have hex : expandIf w maxD t s.visited (w.links markup) = (s.visited, []) := by
      simp [expandIf, hd]
    rw [hex] at h1 h2
    simp only [List.append_nil] at h1
    exact inv_fail h hfr hab (fun hlt => absurd hlt hd) h1 h2 h3 h4
  case pos =>
    have hex : expandIf w maxD t s.visited (w.links markup) =
        expand w (t.depth + 1) t.url s.visited (w.links markup) := by
      simp [expandIf, hd]
    rw [hex] at h1 h2
    have htasks : tasks s' =
        tasks s ++ (expand w (t.depth + 1) t.url s.visited (w.links markup)).2 := by
      rw [tasks, tasks, h1, h3, hfr]
      simp
    have hvis' : s'.visited = s.visited ++
        ((expand w (t.depth + 1) t.url s.visited (w.links markup)).2).map (·.url) := by
      rw [h2]
      exact expand_fst_eq w (t.depth + 1) t.url (w.links markup) s.visited
    have htm : t ∈ tasks s := by
      rw [tasks, hfr]
      exact List.mem_append_right _ (List.mem_cons_self _ _)
    have hdt : distIs w (w.normalize entry) t.url t.depth := h.depth_dist t htm
    have hspec := expand_tasks_spec w (t.depth + 1) t.url (w.links markup) s.visited
    have hsuccs_t : succs w t.url = ((w.links markup).map w.normalize).filter w.admitted := by
      simp [succs, hm]
    have hnew_succ : ∀ t' ∈ (expand w (t.depth + 1) t.url s.visited (w.links markup)).2,
        t'.url ∈ succs w t.url := by
      intro t' ht'
      obtain ⟨_, _, hadm, hmm, _⟩ := hspec t' ht'
      rw [hsuccs_t]
      exact List.mem_filter.mpr ⟨hmm, hadm⟩
    have hfb : frontBound maxD s = t.depth := by simp [frontBound, hfr]
    have hnew_dist : ∀ t' ∈ (expand w (t.depth + 1) t.url s.visited (w.links markup)).2,
        distIs w (w.normalize entry) t'.url (t.depth + 1) := by
      intro t' ht'
      obtain ⟨hdp, _, hadm, hmm, hnv⟩ := hspec t' ht'
      constructor
      · exact (reachIn_succ w (w.normalize entry) t'.url t.depth).mpr
          ⟨t.url, hdt.1, hnew_succ t' ht'⟩
      · intro j hj
        by_contra hlt
        have hj' : j ≤ t.depth := by omega
        obtain ⟨k0, hk0, hk0le⟩ := distIs_exists hj
        have : t'.url ∈ s.visited := h.complete hab t'.url k0 hk0 (by omega)
        exact hnv this
    have hfsort : (t :: rest).Pairwise (fun a b => a.depth ≤ b.depth) := by
      have hm0 := h.mono
      rw [tasks, hfr] at hm0
      exact (List.pairwise_append.mp hm0).2.1
    have hwold : (t :: rest).Pairwise (fun a b => b.depth ≤ a.depth + 1) := by
      have := h.window
      rwa [hfr] at this
    have hmono' : (tasks s').Pairwise (fun a b => a.depth ≤ b.depth) := by
      rw [htasks, List.pairwise_append]
      refine ⟨h.mono, ?_, ?_⟩
      · apply pairwiseOfMem
        intro a ha b hb
        rw [(hspec a ha).1, (hspec b hb).1]
      · intro a ha b hb
        rw [(hspec b hb).1]
        rw [tasks, hfr] at ha
        rcases List.mem_append.mp ha with haf | hafr
        · have hm0 := h.mono
          rw [tasks, hfr] at hm0
          have hcross := (List.pairwise_append.mp hm0).2.2 a haf t (List.mem_cons_self _ _)
          omega
        · rcases List.mem_cons.mp hafr with rfl | hmem
          · omega
          · have := (List.pairwise_cons.mp hwold).1 a hmem
            omega
    have hexp' : ∀ t' ∈ s'.fetched, t'.depth < maxD → ∀ v ∈ succs w t'.url, v ∈ s'.visited := by
      intro t' ht' hdl v hv
      rw [h3] at ht'
      rcases List.mem_append.mp ht' with hf | hf
      · have := h.expanded hab t' hf hdl v hv
        rw [hvis']
        exact List.mem_append_left _ this
      · have heq : t' = t := by simpa using hf
        subst heq
        rw [hsuccs_t] at hv
        obtain ⟨hmm, hadm⟩ := List.mem_filter.mp hv
        obtain ⟨l, hl, hleq⟩ := List.mem_map.mp hmm
        rw [h2, ← hleq]
        exact expand_mem_of w (t'.depth + 1) t'.url (w.links markup) s.visited l hl
          (by rw [hleq]; exact hadm)
    refine ⟨?_, ?_, ?_, ?_, hmono', ?_, fun _ => hexp', ?_⟩
    · rw [hvis', htasks, List.map_append, h.vis_eq]
    · rw [h2]
      exact expand_nodup w (t.depth + 1) t.url (w.links markup) s.visited h.vis_nodup
    · rw [htasks]
      intro t' ht'
      rcases List.mem_append.mp ht' with ho | hn
      · exact h.depth_le t' ho
      · rw [(hspec t' hn).1]
        omega
    · rw [htasks]
      intro t' ht'
      rcases List.mem_append.mp ht' with ho | hn
      · exact h.depth_dist t' ho
      · rw [(hspec t' hn).1]
        exact hnew_dist t' hn
    · rw [h1, List.pairwise_append]
      refine ⟨(List.pairwise_cons.mp hwold).2, ?_, ?_⟩
      · apply pairwiseOfMem
        intro a ha b hb
        rw [(hspec a ha).1, (hspec b hb).1]
        omega
      · intro a ha b hb
        rw [(hspec b hb).1]
        have := (List.pairwise_cons.mp hfsort).1 a ha
        omega
    · intro _ v k hk hb
      have hsort' : s'.frontier.Pairwise (fun a b => a.depth ≤ b.depth) := by
        have := hmono'
        rw [tasks] at this
        exact (List.pairwise_append.mp this).2.1
      refine complete_closure w maxD entry s' ?_ ?_ ?_ hsort' hexp' t.depth ?_ k v hk hb
      · rw [hvis', htasks, List.map_append, h.vis_eq]
      · rw [htasks]
        intro t' ht'
        rcases List.mem_append.mp ht' with ho | hn
        · exact h.depth_le t' ho
        · rw [(hspec t' hn).1]
          omega
      · rw [htasks]
        intro t' ht'
        rcases List.mem_append.mp ht' with ho | hn
        · exact h.depth_dist t' ho
        · rw [(hspec t' hn).1]
          exact hnew_dist t' hn
      · intro v' k' hk' hkd
        rw [hvis']
        exact List.mem_append_left _ (h.complete hab v' k' hk' (by omega))

/-- One BFS step preserves the invariant bundle. -/
theorem inv_step (w : CrawlWorld) (maxD : Nat) (entry : String) {s : CrawlState}
    (h : CrawlInv w maxD entry s) : CrawlInv w maxD entry (step w maxD entry s) := by
  by_cases hab : s.aborted = true
  · simpa [step, hab] using h
  · have hab' : s.aborted = false := by
      revert hab
      cases s.aborted <;> simp
    cases hfr : s.frontier with
    | nil =>
      simpa [step, hab', hfr] using h
    | cons t rest =>
      cases hm : w.fetch t.url with
      | success markup =>
        cases he : w.extract markup with
        | ok text title =>
          by_cases hw : w.writeOk t.url = true
          · refine inv_expand h hfr hab' hm ?_ ?_ ?_ ?_ <;>
              simp [step, hab', hfr, hm, he, hw]
          · have hw' : w.writeOk t.url = false := by
              revert hw
              cases w.writeOk t.url <;> simp
            refine inv_abort h hfr ?_ ?_ ?_ ?_ <;>
              simp [step, hab', hfr, hm, he, hw']
        | failed =>
          refine inv_expand h hfr hab' hm ?_ ?_ ?_ ?_ <;>
            simp [step, hab', hfr, hm, he]
      | timeout =>
        refine inv_fail h hfr hab' (fun _ => by simp [succs, hm]) ?_ ?_ ?_ ?_ <;>
          simp [step, hab', hfr, hm]
      | httpError status =>
        refine inv_fail h hfr hab' (fun _ => by simp [succs, hm]) ?_ ?_ ?_ ?_ <;>
          simp [step, hab', hfr, hm]
      | networkError =>
        refine inv_fail h hfr hab' (fun _ => by simp [succs, hm]) ?_ ?_ ?_ ?_ <;>
          simp [step, hab', hfr, hm]
      | unsupportedContentType =>
        refine inv_fail h hfr hab' (fun _ => by simp [succs, hm]) ?_ ?_ ?_ ?_ <;>
          simp [step, hab', hfr, hm]

/-- The initial state satisfies the invariant bundle. -/
theorem inv_init (w : CrawlWorld) (maxD : Nat) (entry : String) :
    CrawlInv w maxD entry (initState w entry) := by
  refine ⟨?_, ?_, ?_, ?_, ?_, ?_, ?_, ?_⟩
  · simp [initState, tasks]
  · simp [initState]
  · intro t ht
    simp [initState, tasks] at ht
    subst ht
    simp
  · intro t ht
    simp [initState, tasks] at ht
    subst ht
    exact distIs_root w (w.normalize entry)
  · simp [initState, tasks]
  · simp [initState]
  · intro _ t ht
    simp [initState] at ht
  · intro _ v k hk hb
    have hb0 : frontBound maxD (initState w entry) = 0 := by simp [frontBound, initState]
    rw [hb0] at hb
    have hk0 : k = 0 := by omega
    subst hk0
    have := distIs_zero hk
    subst this
    simp [initState]

/-- The invariant bundle holds after any number of BFS steps. -/
theorem inv_run (w : CrawlWorld) (maxD : Nat) (entry : String) (fuel : Nat) :
    CrawlInv w maxD entry (run w maxD entry fuel) := by
  induction fuel with
  | zero => exact inv_init w maxD entry
  | succ n ih => exact inv_step w maxD entry ih

/-- One BFS step preserves the equality of written-record count and the
extracted counter. -/
theorem records_extracted_step (w : CrawlWorld) (maxD : Nat) (entry : String) (s : CrawlState)
    (h : s.records.length = s.stats.extracted) :
    (step w maxD entry s).records.length = (step w maxD entry s).stats.extracted := by
  by_cases hab : s.aborted = true
  · simpa [step, hab] using h
  · have hab' : s.aborted = false := by
      revert hab
      cases s.aborted <;> simp
    cases hfr : s.frontier with
    | nil => simpa [step, hab', hfr] using h
    | cons t rest =>
      cases hm : w.fetch t.url with
      | success markup =>
        cases he : w.extract markup with
        | ok text title =>
          by_cases hw : w.writeOk t.url = true
          · simp [step, hab', hfr, hm, he, hw, bumpErr, h]
          · have hw' : w.writeOk t.url = false := by
              revert hw
              cases w.writeOk t.url <;> simp
            simp [step, hab', hfr, hm, he, hw', bumpErr, h]
        | failed => simp [step, hab', hfr, hm, he, bumpErr, h]
      | timeout => simp [step, hab', hfr, hm, bumpErr, h]
      | httpError status => simp [step, hab', hfr, hm, bumpErr, h]
      | networkError => simp [step, hab', hfr, hm, bumpErr, h]
      | unsupportedContentType => simp [step, hab', hfr, hm, bumpErr, h]

/-- After any number of BFS steps the number of written records equals
the extracted counter. -/
theorem records_extracted_run (w : CrawlWorld) (maxD : Nat) (entry : String) (fuel : Nat) :
    (run w maxD entry fuel).records.length = (run w maxD entry fuel).stats.extracted := by
  induction fuel with
  | zero => simp [run, initState]
  | succ n ih => exact records_extracted_step w maxD entry _ ih

/-- A step aborts a live run only on a PersistenceFailure outcome of
the dequeued task. -/
theorem step_abort_only_persistence (w : CrawlWorld) (maxD : Nat) (entry : String)
    (s2 : CrawlState) (hab : s2.aborted = false)
    (habs : (step w maxD entry s2).aborted = true) :
    ∃ t2 rest2, s2.frontier = t2 :: rest2 ∧
      outcomeKind w t2.url = some ErrorKind.PersistenceFailure := by
  cases hfr : s2.frontier with
  | nil => simp [step, hab, hfr] at habs
  | cons t rest =>
    cases hm : w.fetch t.url with
    | success markup =>
      cases he : w.extract markup with
      | ok text title =>
        by_cases hw : w.writeOk t.url = true
        · simp [step, hab, hfr, hm, he, hw] at habs
        · have hw' : w.writeOk t.url = false := by
            revert hw
            cases w.writeOk t.url <;> simp
          exact ⟨t, rest, rfl, by simp [outcomeKind, hm, he, hw']⟩
      | failed => simp [step, hab, hfr, hm, he] at habs
    | timeout => simp [step, hab, hfr, hm] at habs
    | httpError status => simp [step, hab, hfr, hm] at habs
    | networkError => simp [step, hab, hfr, hm] at habs
    | unsupportedContentType => simp [step, hab, hfr, hm] at habs

/-- C1: within one entry point's run no URL is fetched twice — the
fetched-URL trace has no repeats — and every enqueued task's URL is in
the visited set at or before enqueue time. -/
theorem crawl_no_duplicate_fetches (w : CrawlWorld) (maxD : Nat) (entry : String) (fuel : Nat) :
    (((run w maxD entry fuel).fetched).map (·.url)).Nodup ∧
    ∀ t ∈ tasks (run w maxD entry fuel), t.url ∈ (run w maxD entry fuel).visited := by
  have h := inv_run w maxD entry fuel
  constructor
  · have hn := h.vis_nodup
    rw [h.vis_eq, tasks, List.map_append] at hn
    exact (List.nodup_append.mp hn).1
  · intro t ht
    rw [h.vis_eq]
    exact List.mem_map.mpr ⟨t, ht, rfl⟩

/-- C2: every task ever enqueued during a run records as its depth the
BFS shortest-path distance of its URL from the entry point, and no task
is enqueued with depth above the ceiling. Tasks are immutable, so the
recorded depth is never revised. -/
theorem crawl_depth_correct (w : CrawlWorld) (maxD : Nat) (entry : String) (fuel : Nat)
    (t : CrawlTask) (ht : t ∈ tasks (run w maxD entry fuel)) :
    t.depth ≤ maxD ∧ distIs w (w.normalize entry) t.url t.depth :=
  ⟨(inv_run w maxD entry fuel).depth_le t ht, (inv_run w maxD entry fuel).depth_dist t ht⟩

/-- Witness for C2 at a concrete world and run. -/
theorem crawl_depth_correct_witness :
    (⟨"a", 0, none⟩ : CrawlTask) ∈ tasks (run timeoutWorld 1 "a" 1) ∧
    ((⟨"a", 0, none⟩ : CrawlTask).depth ≤ 1 ∧
     distIs timeoutWorld (timeoutWorld.normalize "a") (⟨"a", 0, none⟩ : CrawlTask).url
       (⟨"a", 0, none⟩ : CrawlTask).depth) :=
  ⟨by decide, crawl_depth_correct timeoutWorld 1 "a" 1 ⟨"a", 0, none⟩ (by decide)⟩

/-- C8: the frontier is consumed in FIFO order, so the depths of the
fetched-task trace are non-decreasing, and consequently any URL fetched
earlier is at a BFS distance no greater than any URL fetched later. -/
theorem crawl_fifo_depth_monotone (w : CrawlWorld) (maxD : Nat) (entry : String) (fuel : Nat) :
    ((run w maxD entry fuel).fetched).Pairwise (fun a b => a.depth ≤ b.depth) ∧
    ((run w maxD entry fuel).fetched).Pairwise (fun a b =>
      ∀ da db, distIs w (w.normalize entry) a.url da →
        distIs w (w.normalize entry) b.url db → da ≤ db) := by
  have h := inv_run w maxD entry fuel
  have hsub : List.Sublist (run w maxD entry fuel).fetched (tasks (run w maxD entry fuel)) :=
    List.sublist_append_left _ _
  have hmono := h.mono.sublist hsub
  refine ⟨hmono, ?_⟩
  rw [List.pairwise_iff_getElem] at hmono ⊢
  intro i j hi hj hij
  intro da db hda hdb
  have hmem_i : ((run w maxD entry fuel).fetched)[i] ∈ tasks (run w maxD entry fuel) :=
    hsub.mem (List.getElem_mem hi)
  have hmem_j : ((run w maxD entry fuel).fetched)[j] ∈ tasks (run w maxD entry fuel) :=
    hsub.mem (List.getElem_mem hj)
  have hdi := h.depth_dist _ hmem_i
  have hdj := h.depth_dist _ hmem_j
  have hda' := distIs_unique hda hdi
  have hdb' := distIs_unique hdb hdj
  have := hmono i j hi hj hij
  omega

/-- C7: at any point of a run, including one interrupted mid-crawl,
every output line is the serialization of one PageRecord and the number
of lines equals the extracted counter. -/
theorem crawl_output_valid (w : CrawlWorld) (maxD : Nat) (entry : String) (fuel : Nat) :
    (outputLines (run w maxD entry fuel)).length = (run w maxD entry fuel).stats.extracted ∧
    ∀ l ∈ outputLines (run w maxD entry fuel), ∃ r : PageRecord, l = serializePageRecord r := by
  constructor
  · rw [outputLines, List.length_map]
    exact records_extracted_run w maxD entry fuel
  · intro l hl
    obtain ⟨r, _, hr⟩ := List.mem_map.mp hl
    exact ⟨r, hr.symm⟩

/-- C5: a recoverable outcome of the dequeued task (Timeout, HttpError,
NetworkError, UnsupportedContentType, ExtractionFailed) increments
exactly that error counter, writes no PageRecord, and the BFS continues
with the remaining frontier, not aborted; and a live step aborts only
on a PersistenceFailure outcome. -/
theorem crawl_recoverable_errors (w : CrawlWorld) (maxD : Nat) (entry : String)
    (s : CrawlState) (t : CrawlTask) (rest : List CrawlTask) (k : ErrorKind)
    (hfr : s.frontier = t :: rest) (hab : s.aborted = false)
    (hk : outcomeKind w t.url = some k) (hrec : recoverable k = true) :
    (step w maxD entry s).aborted = false ∧
    (step w maxD entry s).stats.errorsByKind k = s.stats.errorsByKind k + 1 ∧
    (∀ j, j ≠ k → (step w maxD entry s).stats.errorsByKind j = s.stats.errorsByKind j) ∧
    (step w maxD entry s).records = s.records ∧
    (∃ ts, (step w maxD entry s).frontier = rest ++ ts) ∧
    (∀ s2 : CrawlState, s2.aborted = false → (step w maxD entry s2).aborted = true →
      ∃ t2 rest2, s2.frontier = t2 :: rest2 ∧
        outcomeKind w t2.url = some ErrorKind.PersistenceFailure) := by
  cases hm : w.fetch t.url with
  | success markup =>
    cases he : w.extract markup with
    | ok text title =>
      by_cases hw : w.writeOk t.url = true
      · simp [outcomeKind, hm, he, hw] at hk
      · have hw' : w.writeOk t.url = false := by
          revert hw
          cases w.writeOk t.url <;> simp
        simp only [outcomeKind, hm, he, hw', Bool.false_eq_true, if_false,
          Option.some.injEq] at hk
        subst hk
        simp [recoverable] at hrec
    | failed =>
      simp only [outcomeKind, hm, he, Option.some.injEq] at hk
      subst hk
      refine ⟨?_, ?_, ?_, ?_, ⟨(expandIf w maxD t s.visited (w.links markup)).2, ?_⟩, ?_⟩ <;>
        first
          | exact fun s2 => step_abort_only_persistence w maxD entry s2
          | simp [step, hab, hfr, hm, he, bumpErr]
  | timeout =>
    simp only [outcomeKind, hm, Option.some.injEq] at hk
    subst hk
    refine ⟨?_, ?_, ?_, ?_, ⟨[], ?_⟩, ?_⟩ <;>
      first
        | exact fun s2 => step_abort_only_persistence w maxD entry s2
        | simp [step, hab, hfr, hm, bumpErr]
  | httpError status =>
    simp only [outcomeKind, hm, Option.some.injEq] at hk
    subst hk
    refine ⟨?_, ?_, ?_, ?_, ⟨[], ?_⟩, ?_⟩ <;>
      first
        | exact fun s2 => step_abort_only_persistence w maxD entry s2
        | simp [step, hab, hfr, hm, bumpErr]
  | networkError =>
    simp only [outcomeKind, hm, Option.some.injEq] at hk
    subst hk
    refine ⟨?_, ?_, ?_, ?_, ⟨[], ?_⟩, ?_⟩ <;>
      first
        | exact fun s2 => step_abort_only_persistence w maxD entry s2
        | simp [step, hab, hfr, hm, bumpErr]
  | unsupportedContentType =>
    simp only [outcomeKind, hm, Option.some.injEq] at hk
    subst hk
    refine ⟨?_, ?_, ?_, ?_, ⟨[], ?_⟩, ?_⟩ <;>
      first
        | exact fun s2 => step_abort_only_persistence w maxD entry s2
        | simp [step, hab, hfr, hm, bumpErr]

/-- Witness for C5: a concrete timed-out fetch increments exactly the
Timeout counter and the run is not aborted. -/
theorem crawl_recoverable_errors_witness :
    ((initState timeoutWorld "a").frontier = [⟨"a", 0, none⟩] ∧
     (initState timeoutWorld "a").aborted = false ∧
     outcomeKind timeoutWorld "a" = some ErrorKind.Timeout ∧
     recoverable ErrorKind.Timeout = true) ∧
    (step timeoutWorld 1 "a" (initState timeoutWorld "a")).aborted = false ∧
    (step timeoutWorld 1 "a" (initState timeoutWorld "a")).stats.errorsByKind ErrorKind.Timeout =
      (initState timeoutWorld "a").stats.errorsByKind ErrorKind.Timeout + 1 ∧
    (step timeoutWorld 1 "a" (initState timeoutWorld "a")).records =
      (initState timeoutWorld "a").records :=
  ⟨⟨by decide, by decide, by decide, by decide⟩,
   (crawl_recoverable_errors timeoutWorld 1 "a" (initState timeoutWorld "a")
      ⟨"a", 0, none⟩ [] ErrorKind.Timeout (by decide) (by decide) (by decide) (by decide)).1,
   (crawl_recoverable_errors timeoutWorld 1 "a" (initState timeoutWorld "a")
      ⟨"a", 0, none⟩ [] ErrorKind.Timeout (by decide) (by decide) (by decide) (by decide)).2.1,
   (crawl_recoverable_errors timeoutWorld 1 "a" (initState timeoutWorld "a")
      ⟨"a", 0, none⟩ [] ErrorKind.Timeout (by decide) (by decide) (by decide) (by decide)).2.2.2.1⟩

/-- C6 counterexample: in a concrete world the entry page's extraction
fails (the outcome is ExtractionFailed), yet its child is still
discovered and enqueued — the offending URL's children ARE discovered,
contradicting the claim that they are not. -/
theorem crawl_extraction_failure_cex :
    outcomeKind extractFailWorld "a" = some ErrorKind.ExtractionFailed ∧
    (run extractFailWorld 1 "a" 1).stats.errorsByKind ErrorKind.ExtractionFailed = 1 ∧
    (run extractFailWorld 1 "a" 1).records = [] ∧
    (run extractFailWorld 1 "a" 1).frontier = [⟨"b", 1, some "a"⟩] := by
  refine ⟨by decide, by decide, by decide, by decide⟩

/-- C6 amended: on extraction failure the URL is abandoned for output —
no PageRecord is written and the ExtractionFailed counter increments —
and the BFS continues, but outbound links are still expanded from the
raw markup: below the depth ceiling every admitted child enters the
visited set (and the frontier when new). -/
theorem crawl_extraction_failure_behavior (w : CrawlWorld) (maxD : Nat) (entry : String)
    (s : CrawlState) (t : CrawlTask) (rest : List CrawlTask) (markup : String)
    (hfr : s.frontier = t :: rest) (hab : s.aborted = false)
    (hm : w.fetch t.url = .success markup) (he : w.extract markup = .failed) :
    (step w maxD entry s).records = s.records ∧
    (step w maxD entry s).stats.errorsByKind ErrorKind.ExtractionFailed =
      s.stats.errorsByKind ErrorKind.ExtractionFailed + 1 ∧
    (step w maxD entry s).aborted = false ∧
    (∃ ts, (step w maxD entry s).frontier = rest ++ ts) ∧
    (t.depth < maxD → ∀ v ∈ succs w t.url, v ∈ (step w maxD entry s).visited) := by
  refine ⟨?_, ?_, ?_, ⟨(expandIf w maxD t s.visited (w.links markup)).2, ?_⟩, ?_⟩
  · simp [step, hab, hfr, hm, he]
  · simp [step, hab, hfr, hm, he, bumpErr]
  · simp [step, hab, hfr, hm, he]
  · simp [step, hab, hfr, hm, he]
  · intro hd v hv
    simp only [step, hab, hfr, hm, he, Bool.false_eq_true, if_false]
    simp only [succs, hm] at hv
    obtain ⟨hmm, hadm⟩ := List.mem_filter.mp hv
    obtain ⟨l, hl, hleq⟩ := List.mem_map.mp hmm
    rw [expandIf, if_pos hd, ← hleq]
    exact expand_mem_of w (t.depth + 1) t.url (w.links markup) s.visited l hl
      (by rw [hleq]; exact hadm)

/-- Witness for the amended C6 at the concrete extraction-failure
world: the child link b of the failing entry page is discovered. -/
theorem crawl_extraction_failure_behavior_witness :
    ((initState extractFailWorld "a").frontier = [⟨"a", 0, none⟩] ∧
     extractFailWorld.fetch "a" = .success "m" ∧
     extractFailWorld.extract "m" = .failed) ∧
    (step extractFailWorld 1 "a" (initState extractFailWorld "a")).records =
      (initState extractFailWorld "a").records ∧
    ((⟨"a", 0, none⟩ : CrawlTask).depth < 1 →
      ∀ v ∈ succs extractFailWorld (⟨"a", 0, none⟩ : CrawlTask).url,
        v ∈ (step extractFailWorld 1 "a" (initState extractFailWorld "a")).visited) :=
  ⟨⟨by decide, by decide, by decide⟩,
   (crawl_extraction_failure_behavior extractFailWorld 1 "a" (initState extractFailWorld "a")
      ⟨"a", 0, none⟩ [] "m" (by decide) (by decide) (by decide) (by decide)).1,
   (crawl_extraction_failure_behavior extractFailWorld 1 "a" (initState extractFailWorld "a")
      ⟨"a", 0, none⟩ [] "m" (by decide) (by decide) (by decide) (by decide)).2.2.2.2⟩
